import Mathlib

/-!
Shallow embedding of the `terrasync scan` pipeline (Go) used to check the
natural-language specification against the code.

Strings are modelled as `List Char`; Go `int64` values and `time.Time` /
`time.Duration` values are modelled as `Int` (nanoseconds for durations and
instants, as in Go).  Fallible Go functions (those returning `error`) are
modelled with `Option`.
-/

namespace Terrasync

/-- ASCII whitespace, modelling Go's `unicode.IsSpace` on the ASCII range
(the inputs considered in this development are ASCII). -/
def isSpaceChar (c : Char) : Bool :=
  c = ' ' || c = '\t' || c = '\n' || c = '\r' || c = '\x0b' || c = '\x0c'

/-- One character of Go's `strings.ToLower`, restricted to ASCII
(the repository's filter expressions are ASCII). -/
def toLowerChar (c : Char) : Char :=
  if 65 ≤ c.toNat ∧ c.toNat ≤ 90 then Char.ofNat (c.toNat + 32) else c

/-- Go `strings.ToLower` on the ASCII range. -/
def toLowerStr (s : List Char) : List Char := s.map toLowerChar

/-- Go `strings.TrimSpace`. -/
def trimSpace (s : List Char) : List Char :=
  ((s.dropWhile isSpaceChar).reverse.dropWhile isSpaceChar).reverse

/-- Go `strings.Trim(s, "'\"")` as used by `parseCondition`: removes every
leading and trailing single or double quote character. -/
def trimQuotes (s : List Char) : List Char :=
  let isQuote : Char → Bool := fun c => c = '\'' || c = '"'
  ((s.dropWhile isQuote).reverse.dropWhile isQuote).reverse

/-- Prepend a character to the first piece of a split result. -/
def consHead (c : Char) : List (List Char) → List (List Char)
  | [] => [[c]]
  | p :: ps => (c :: p) :: ps

/-- Go `strings.Split(s, "and")` (src/app/scan/utils.go splits the filter
expression on the three-character substring `and`): split at every leftmost
non-overlapping occurrence. -/
def splitOnAnd : List Char → List (List Char)
  | 'a' :: 'n' :: 'd' :: rest => [] :: splitOnAnd rest
  | c :: rest => consHead c (splitOnAnd rest)
  | [] => [[]]

/-- Go `strings.Split(s, ".")`, as the decimal-literal syntax of
`parseSize`/`parseDuration` needs it: split at every `.`. -/
def splitOnDot : List Char → List (List Char)
  | '.' :: rest => [] :: splitOnDot rest
  | c :: rest => consHead c (splitOnDot rest)
  | [] => [[]]

/-- Go `strings.Contains(s, sub)`: substring test. -/
def containsSub (s sub : List Char) : Bool :=
  (List.range (s.length + 1)).any (fun i => sub.isPrefixOf (s.drop i))

/-- `ParseConditions` (src/app/scan/utils.go): lowercases the whole input,
splits it on the substring `"and"`, trims whitespace around every piece and
drops the empty pieces. -/
def ParseConditions (input : List Char) : List (List Char) :=
  let conditions := splitOnAnd (toLowerStr input)
  (conditions.map trimSpace).filter (fun c => c ≠ [])

/-- The operator list of `parseCondition` (src/app/scan/filter.go), in the
order the alternation of the operator regexp tries them. -/
def operators : List (List Char) :=
  [['>', '='], ['<', '='], ['=', '='], ['!', '='], ['i', 'n'],
   ['l', 'i', 'k', 'e'], ['>'], ['<']]

/-- First operator of `operators` that occurs at the head of `s`, if any. -/
def opAt (s : List Char) : Option (List Char) :=
  operators.find? (fun op => op.isPrefixOf s)

/-- Leftmost occurrence of an operator in `s`: the index of the occurrence
together with the matched operator.  This models the first match of the Go
regexp `\s*(>=|<=|==|!=|in|like|>|<)\s*`: Go's regexp engine returns the
match that begins as earliest as possible, and because the operators contain
no whitespace the optional `\s*` prefix never changes which operator
occurrence is leftmost; at a fixed position the alternation picks the first
alternative in list order. -/
def findOp : List Char → Option (Nat × List Char)
  | [] => none
  | c :: rest =>
    match opAt (c :: rest) with
    | some op => some (0, op)
    | none =>
      match findOp rest with
      | some (i, op) => some (i + 1, op)
      | none => none

/-- A digit character to its value. -/
def digitVal (c : Char) : Nat := c.toNat - 48

/-- Parse a non-empty run of decimal digits. -/
def digitsVal (ds : List Char) : Nat :=
  ds.foldl (fun acc c => acc * 10 + digitVal c) 0

/-- Decimal literal `intPart[.fracPart]` as an exact rational
`(numerator, scale)` with value `numerator / 10^scale`.  Models
`strconv.ParseFloat` on the plain decimal literals the scanner's filter
language uses; those literals (`100`, `10`, `1.5`, `0.5`, …) are handled
exactly here, while Go rounds to the nearest `float64` — the two agree on
every literal whose value and unit product are exactly representable, which
covers all inputs appearing in this development. -/
def parseDecimal (s : List Char) : Option (Nat × Nat) :=
  match splitOnDot s with
  | [intPart] =>
    if intPart ≠ [] ∧ intPart.all Char.isDigit then
      some (digitsVal intPart, 0)
    else none
  | [intPart, fracPart] =>
    if (intPart ≠ [] ∨ fracPart ≠ []) ∧ intPart.all Char.isDigit ∧
        fracPart.all Char.isDigit then
      some (digitsVal intPart * 10 ^ fracPart.length + digitsVal fracPart,
            fracPart.length)
    else none
  | _ => none

/-- `parseSize` (src/app/scan/filter.go): a decimal number from the regexp
class `[0-9.]+` followed by an optional unit in `kmgKMGtT`, multiplied by the
unit's power of 1024 and truncated to an integer. -/
def parseSize (sizeStr : List Char) : Option Int := do
  let s := trimSpace sizeStr
  let (numPart, unitPart) :=
    match s.getLast? with
    | some c =>
      if c.isDigit ∨ c = '.' then (s, ([] : List Char))
      else (s.dropLast, [c])
    | none => (s, [])
  if numPart = [] ∨ ¬ numPart.all (fun c => c.isDigit ∨ c = '.') then
    none
  else
    let (num, scale) ← parseDecimal numPart
    let mult : Nat ←
      match toLowerStr unitPart with
      | [] => some 1
      | ['k'] => some (2 ^ 10)
      | ['m'] => some (2 ^ 20)
      | ['g'] => some (2 ^ 30)
      | ['t'] => some (2 ^ 40)
      | _ => none
    some (Int.ofNat (num * mult / 10 ^ scale))

/-- Nanoseconds in one hour (`time.Hour`). -/
def nsPerHour : Nat := 3600000000000

/-- `parseDuration` (src/app/scan/filter.go): a float number of hours turned
into a `time.Duration` (nanoseconds, truncated toward zero).  An optional
leading `-` is accepted, as by `strconv.ParseFloat`. -/
def parseDuration (durStr : List Char) : Option Int := do
  let s := trimSpace durStr
  match s with
  | '-' :: mag => do
    let (num, scale) ← parseDecimal mag
    some (-(Int.ofNat (num * nsPerHour / 10 ^ scale)))
  | _ => do
    let (num, scale) ← parseDecimal s
    some (Int.ofNat (num * nsPerHour / 10 ^ scale))

/-- The typed value of a parsed condition (`Condition.Value` in the Go code
is `interface{}`; the parser only ever stores one of these three shapes). -/
inductive CondValue where
  | str (v : List Char)
  | size (v : Int)
  | dur (v : Int)
  deriving DecidableEq, Repr

/-- `Condition` (src/app/scan/filter.go). -/
structure Condition where
  property : List Char
  operator : List Char
  value : CondValue
  deriving DecidableEq, Repr

/-- `parseCondition` (src/app/scan/filter.go): locate the leftmost operator,
split the clause there, trim both sides, and parse the value according to the
(lowercased) property name. -/
def parseCondition (condStr : List Char) : Option Condition := do
  let (i, op) ← findOp condStr
  let property := trimSpace (condStr.take i)
  let valueStr := trimSpace (condStr.drop (i + op.length))
  let prop := toLowerStr property
  let value : CondValue ←
    if prop = ['n', 'a', 'm', 'e'] ∨ prop = ['t', 'y', 'p', 'e'] ∨
        prop = ['p', 'a', 't', 'h'] then
      some (CondValue.str (trimQuotes valueStr))
    else if prop = ['s', 'i', 'z', 'e'] then
      (parseSize valueStr).map CondValue.size
    else if prop = ['m', 'o', 'd', 'i', 'f', 'i', 'e', 'd'] then
      (parseDuration valueStr).map CondValue.dur
    else none
  some { property := prop
         operator := toLowerStr op
         value := value }

/-- `NewConditionFilter` (src/app/scan/filter.go): parse every condition
string; fail if any clause fails. -/
def NewConditionFilter (conditions : List (List Char)) :
    Option (List Condition) :=
  conditions.mapM parseCondition

/-! ### The `like` operator

`matchString`'s `like` case rewrites the pattern (`%` → `.*`, `_` → `.`),
anchors it with `^`/`$` and hands it to Go's `regexp.MatchString`.  The
regexp engine itself is Go library code; we model the fragment of Go regular
expressions that translated patterns produce — literal characters, `.`, and
`.*` — and return `false` outside that fragment (the theorems about `like`
restrict the pattern so that the fragment suffices). -/

/-- One token of the modelled regular-expression fragment. -/
inductive RTok where
  | lit (c : Char)
  | anyChar
  | anyStar
  deriving DecidableEq, Repr

/-- The regexp metacharacters of Go's `regexp` syntax.  A pattern character
outside this list reaches the compiled regexp as a literal. -/
def regexMeta : List Char :=
  ['.', '*', '+', '?', '(', ')', '[', ']', '{', '}', '|', '^', '$', '\\']

/-- `strings.Replace(target, "%", ".*", -1)` — `%` is a single character, so
the replacement acts independently on each character. -/
def replacePercent (p : List Char) : List Char :=
  p.flatMap (fun c => if c = '%' then ['.', '*'] else [c])

/-- `strings.Replace(·, "_", ".", -1)`. -/
def replaceUnderscore (p : List Char) : List Char :=
  p.map (fun c => if c = '_' then '.' else c)

/-- The body of the regexp built by `matchString`'s `like` case (the `^` and
`$` anchors are represented by `regexMatch` matching the whole string). -/
def translateLike (p : List Char) : List Char :=
  replaceUnderscore (replacePercent p)

/-- Tokenize the modelled regexp fragment: `.*` → `anyStar`, `.` → `anyChar`,
a non-metacharacter → itself; anything else is outside the fragment. -/
def tokenizeRegex : List Char → Option (List RTok)
  | [] => some []
  | '.' :: '*' :: rest => (tokenizeRegex rest).map (RTok.anyStar :: ·)
  | '.' :: rest => (tokenizeRegex rest).map (RTok.anyChar :: ·)
  | c :: rest =>
    if c ∈ regexMeta then none
    else (tokenizeRegex rest).map (RTok.lit c :: ·)

/-- Anchored matching of the modelled regexp fragment against a string,
with an explicit fuel so the recursion is structural (each recursive call
strictly decreases `tokens.length + s.length`, so any fuel above that bound
gives the fixpoint). -/
def regexMatchAux : Nat → List RTok → List Char → Bool
  | 0, _, _ => false
  | _ + 1, [], [] => true
  | _ + 1, [], _ :: _ => false
  | fuel + 1, RTok.lit c :: ts, d :: s => c = d && regexMatchAux fuel ts s
  | _ + 1, RTok.lit _ :: _, [] => false
  | fuel + 1, RTok.anyChar :: ts, _ :: s => regexMatchAux fuel ts s
  | _ + 1, RTok.anyChar :: _, [] => false
  | fuel + 1, RTok.anyStar :: ts, [] => regexMatchAux fuel ts []
  | fuel + 1, RTok.anyStar :: ts, d :: s =>
    regexMatchAux fuel ts (d :: s) ||
    regexMatchAux fuel (RTok.anyStar :: ts) s

/-- Anchored matching of the modelled regexp fragment against a string. -/
def regexMatch (ts : List RTok) (s : List Char) : Bool :=
  regexMatchAux (ts.length + s.length + 1) ts s

/-- The `like` case of `matchString`: translate the pattern and run the
(modelled) regexp against the whole string. -/
def matchLike (value target : List Char) : Bool :=
  match tokenizeRegex (translateLike target) with
  | some toks => regexMatch toks value
  | none => false

/-- `matchString` (src/app/scan/filter.go). -/
def matchString (value operator target : List Char) : Bool :=
  if operator = ['=', '='] then value = target
  else if operator = ['!', '='] then value ≠ target
  else if operator = ['i', 'n'] then
    containsSub (toLowerStr value) (toLowerStr target)
  else if operator = ['l', 'i', 'k', 'e'] then matchLike value target
  else false

/-- `matchNumber` (src/app/scan/filter.go). -/
def matchNumber (value : Int) (operator : List Char) (target : Int) : Bool :=
  if operator = ['=', '='] then value = target
  else if operator = ['!', '='] then value ≠ target
  else if operator = ['>'] then target < value
  else if operator = ['<'] then value < target
  else if operator = ['>', '='] then target ≤ value
  else if operator = ['<', '='] then value ≤ target
  else false

/-- `matchTime` (src/app/scan/filter.go); `time.Time` instants are modelled
as `Int` nanoseconds, so `Before` is `<` and `After` is `>`. -/
def matchTime (value : Int) (operator : List Char) (target : Int) : Bool :=
  if operator = ['>'] then target < value
  else if operator = ['<'] then value < target
  else if operator = ['>', '='] then target ≤ value
  else if operator = ['<', '='] then value ≤ target
  else if operator = ['=', '='] then value = target
  else if operator = ['!', '='] then value ≠ target
  else false

/-- The `object.FileInfo` data the scan pipeline reads: key (path relative
to the scan root), size, times (`Int` nanosecond instants), permission bits
and the kind flags. -/
structure FileInfo where
  key : List Char
  size : Int
  mtime : Int
  atime : Int
  ctime : Int
  perm : Nat
  isDir : Bool
  isSymlink : Bool
  isRegular : Bool
  deriving DecidableEq, Repr

/-- `filepath.Base` for the clean, separator-normalised keys the scanner
produces (no `.`/`..` segments, no repeated separators): the part after the
last `/`, with Go's special cases for an empty path, a trailing slash and an
all-slash path. -/
def basename (key : List Char) : List Char :=
  if key = [] then ['.']
  else
    let stripped := (key.reverse.dropWhile (· = '/')).reverse
    if stripped = [] then ['/']
    else (stripped.reverse.takeWhile (· ≠ '/')).reverse

/-- `filepath.Dir` for clean keys: everything before the last `/` (after
dropping trailing slashes), `"."` when there is no separator and `"/"` for a
root-anchored single element. -/
def dirname (key : List Char) : List Char :=
  let stripped := (key.reverse.dropWhile (· = '/')).reverse
  let dir := (stripped.reverse.dropWhile (· ≠ '/')).reverse
  if dir = [] then ['.']
  else
    let dirStripped := (dir.reverse.dropWhile (· = '/')).reverse
    if dirStripped = [] then ['/'] else dirStripped

/-- `matchCondition` (src/app/scan/filter.go).  `now` is the per-call
`time.Now()` instant.  A property/value shape that the parser can never
produce evaluates to `false` (the Go code's type assertion is unreachable
for parser-produced conditions). -/
def matchCondition (now : Int) (fileInfo : FileInfo) (cond : Condition) :
    Bool :=
  if cond.property = ['n', 'a', 'm', 'e'] then
    match cond.value with
    | CondValue.str v => matchString (basename fileInfo.key) cond.operator v
    | _ => false
  else if cond.property = ['p', 'a', 't', 'h'] then
    match cond.value with
    | CondValue.str v => matchString fileInfo.key cond.operator v
    | _ => false
  else if cond.property = ['s', 'i', 'z', 'e'] then
    match cond.value with
    | CondValue.size v => matchNumber fileInfo.size cond.operator v
    | _ => false
  else if cond.property = ['m', 'o', 'd', 'i', 'f', 'i', 'e', 'd'] then
    match cond.value with
    | CondValue.dur d => matchTime fileInfo.mtime cond.operator (now - d)
    | _ => false
  else if cond.property = ['t', 'y', 'p', 'e'] then
    match cond.value with
    | CondValue.str v =>
      matchString (if fileInfo.isDir then ['d', 'i', 'r']
                   else ['f', 'i', 'l', 'e']) cond.operator v
    | _ => false
  else false

/-- `ConditionFilter.IsSatisfied` (src/app/scan/filter.go): all conditions
must hold; the empty filter holds. -/
def IsSatisfied (now : Int) (conditions : List Condition)
    (fileInfo : FileInfo) : Bool :=
  conditions.all (matchCondition now fileInfo)

/-! ### Statistics aggregator (src/app/scan/stat.go) -/

/-- `Stats`: the running counters.  The Go fields are `int64`/`int`
accumulators updated atomically in a single-consumer pipeline, so a pure
record threaded through a fold models them. -/
structure Stats where
  fileCount : Int := 0
  dirCount : Int := 0
  totalSize : Int := 0
  totalSymlink : Int := 0
  totalRegularFile : Int := 0
  totalNameLength : Int := 0
  maxNameLength : Int := 0
  totalDirDepth : Int := 0
  maxDirDepth : Int := 0
  deriving DecidableEq, Repr

/-- Count of path separators in a path (`strings.Count(path, "/")`;
`filepath.Separator` is `/` on the POSIX targets the code supports). -/
def countSep (path : List Char) : Int :=
  Int.ofNat (path.countP (· = '/'))

/-- The directory depth `Stats.Update` computes for a non-directory entry:
separators in `filepath.Dir(key)`, with `/` and `.` mapping to 0. -/
def entryDepth (key : List Char) : Int :=
  let path := dirname key
  if path = ['/'] ∨ path = ['.'] then 0 else countSep path

/-- `Stats.Update` (src/app/scan/stat.go).  Directory entries only bump
`dirCount`; every name/size/depth counter is touched only in the
non-directory branch.  The symlink counter is updated for every entry. -/
def statsUpdate (s : Stats) (fileInfo : FileInfo) : Stats :=
  let s' :=
    if fileInfo.isDir then
      { s with dirCount := s.dirCount + 1 }
    else
      let nameLength : Int := Int.ofNat (basename fileInfo.key).length
      let depth := entryDepth fileInfo.key
      { s with
        fileCount := s.fileCount + 1
        totalSize := s.totalSize + fileInfo.size
        totalNameLength := s.totalNameLength + nameLength
        totalDirDepth := s.totalDirDepth + depth
        maxNameLength := if s.maxNameLength < nameLength then nameLength
                         else s.maxNameLength
        maxDirDepth := if s.maxDirDepth < depth then depth
                       else s.maxDirDepth
        totalRegularFile :=
          if fileInfo.isRegular then s.totalRegularFile + 1
          else s.totalRegularFile }
  if fileInfo.isSymlink then { s' with totalSymlink := s'.totalSymlink + 1 }
  else s'

/-- The statistics after consuming a stream of entries. -/
def statsOf (entries : List FileInfo) : Stats :=
  entries.foldl statsUpdate {}

/-- `Stats.GetAvgNameLength` (src/app/scan/stat.go): guarded against
`fileCount = 0`. -/
def getAvgNameLength (s : Stats) : Int :=
  if s.fileCount = 0 then 0 else s.totalNameLength / s.fileCount

/-- `Stats.GetAvgDirDepth` (src/app/scan/stat.go): guarded likewise. -/
def getAvgDirDepth (s : Stats) : Int :=
  if s.fileCount = 0 then 0 else s.totalDirDepth / s.fileCount

/-- The average-size computation of `Stats.Print` (src/app/scan/stat.go) and
`GenerateConsoleReportSummary` (report code): `totalSize / int64(fileCount)`
with no guard.  In Go an integer division by zero is a runtime panic, which
this model renders as `none`. -/
def averageSizeBytes (s : Stats) : Option Int :=
  if s.fileCount = 0 then none else some (s.totalSize / s.fileCount)

/-! ### Catalog rows and the incremental diff engine
(src/db/sqlite.go and the incremental-scan part of the scan package) -/

/-- `filepath.Ext`: scan the key backwards; stop at a path separator; return
the suffix from the first `.` found (i.e. from the final `.` of the final
element), including that dot; empty if none.  `acc` carries the characters
already passed over, in forward order. -/
def extScan : List Char → List Char → List Char
  | [], _ => []
  | c :: rest, acc =>
    if c = '/' then []
    else if c = '.' then c :: acc
    else extScan rest (c :: acc)

/-- `filepath.Ext(key)`. -/
def filepathExt (key : List Char) : List Char :=
  extScan key.reverse []

/-- `db.FileInfoData` (src/db/sqlite.go): the persisted projection of an
entry; `key` is the `path` column. -/
structure FileInfoData where
  key : List Char
  size : Int
  ext : List Char
  ctime : Int
  mtime : Int
  atime : Int
  perm : Nat
  isSymlink : Bool
  isDir : Bool
  isRegular : Bool
  deriving DecidableEq, Repr

/-- `db.ProcessFileInfo` (src/db/sqlite.go): the extension column is
`filepath.Ext(key)` for non-directories and empty for directories. -/
def ProcessFileInfo (fileInfo : FileInfo) : FileInfoData :=
  { key := fileInfo.key
    size := fileInfo.size
    ext := if fileInfo.isDir then [] else filepathExt fileInfo.key
    ctime := fileInfo.ctime
    mtime := fileInfo.mtime
    atime := fileInfo.atime
    perm := fileInfo.perm
    isSymlink := fileInfo.isSymlink
    isDir := fileInfo.isDir
    isRegular := fileInfo.isRegular }

/-- `QueryExactNewFiles` (src/db/sqlite.go): the temp-table rows whose path
matches no `file_entries` row (`LEFT JOIN … WHERE f.path IS NULL`). -/
def QueryExactNewFiles (temp prior : List FileInfoData) :
    List FileInfoData :=
  temp.filter (fun t => prior.all (fun f => f.key ≠ t.key))

/-- `QueryChangedFiles` (src/db/sqlite.go): an inner join of the temp table
with `file_entries` on path, keeping the pairs whose `ctime` or `mtime`
differ; the selected columns are the temp row's. -/
def QueryChangedFiles (temp prior : List FileInfoData) :
    List FileInfoData :=
  temp.flatMap (fun t =>
    (prior.filter (fun f =>
      f.key = t.key ∧ (t.ctime ≠ f.ctime ∨ t.mtime ≠ f.mtime))).map
      (fun _ => t))

/-- `bloomPreFilter` (scan package): split the scanned stream by the bloom
membership test on the key.  The bloom filter itself is library code; it is
modelled as an arbitrary membership predicate `bloom`, and the engine's
correctness theorem assumes only its no-false-negative guarantee (every
previously added path tests positive). -/
def bloomPreFilter (bloom : List Char → Bool) (scanned : List FileInfo) :
    List FileInfo × List FileInfo :=
  (scanned.filter (fun e => ¬ bloom e.key),
   scanned.filter (fun e => bloom e.key))

/-- `ProcessFilesForIncrementalScan` (scan package): bloom prefilter, load
the candidates into a temp table (`loadCandidatesToTemp` batches the
`SaveEntries` calls, which store `ProcessFileInfo` projections), run the two
exact queries, and emit `newFiles = bloom-new ∪ exact-new` and
`changedFiles`. -/
def ProcessFilesForIncrementalScan (bloom : List Char → Bool)
    (prior : List FileInfoData) (scanned : List FileInfo) :
    List FileInfoData × List FileInfoData :=
  let parts := bloomPreFilter bloom scanned
  let temp := parts.2.map ProcessFileInfo
  let exactNewFiles := QueryExactNewFiles temp prior
  let changedFiles := QueryChangedFiles temp prior
  (parts.1.map ProcessFileInfo ++ exactNewFiles, changedFiles)

/-! ### Concurrent walker (`ListAll`, scan package)

The storage tree is modelled as a rose tree of entries; `Storage.List`
yields the children of a directory.  The concurrent queue discipline of
`ListAll` only permutes the result stream, so the canonical depth-first
sequence models it; every claim about the walker is membership-based and
order-independent. -/

/-- A node of the storage tree: the entry surfaced for it and, when it is a
directory, the entries `Storage.List` yields beneath it. -/
inductive FsNode where
  | mk (info : FileInfo) (children : List FsNode)

/-- The entry at a node. -/
def FsNode.info : FsNode → FileInfo
  | mk i _ => i

/-- The children of a node. -/
def FsNode.children : FsNode → List FsNode
  | mk _ cs => cs

/-- The admission rule applied by `list` inside `ListAll`: an empty match
filter matches everything; a non-empty exclude filter that matches
suppresses the entry. -/
def admitRule (now : Int) (matchConditions excludeConditions : List Condition)
    (e : FileInfo) : Bool :=
  (matchConditions = [] || IsSatisfied now matchConditions e) &&
  !(excludeConditions ≠ [] && IsSatisfied now excludeConditions e)

/-- `ListAll` (the depth-aware variant, scan package) as the canonical
depth-first stream.  `cs` are the children of the directory being processed
and `currentDepth` the depth `list` receives for it; the root is seeded at
depth 1.  `list` returns without listing when `0 < depth ∧ depth <
currentDepth`; otherwise it emits the admitted children and enqueues every
directory child at `currentDepth + 1` (a directory child is enqueued whether
or not it was emitted). -/
def listAll (depth : Nat) (now : Int)
    (matchConditions excludeConditions : List Condition) :
    List FsNode → Nat → List FileInfo
  | cs, currentDepth =>
    if 0 < depth ∧ depth < currentDepth then []
    else
      (cs.map FsNode.info).filter
        (admitRule now matchConditions excludeConditions) ++
      cs.attach.flatMap (fun n =>
        if n.1.info.isDir then
          listAll depth now matchConditions excludeConditions n.1.children
            (currentDepth + 1)
        else [])
  termination_by cs _ => sizeOf cs
  decreasing_by
    have hn : sizeOf n.1 < sizeOf cs := List.sizeOf_lt_of_mem n.2
    have hc : sizeOf n.1.children < sizeOf n.1 := by
      cases n.1 with
      | mk i ch => simp [FsNode.children]
    omega

/-- Ground truth for the walker theorems: every entry strictly below the
given sibling list, paired with its depth (`d` is the depth of the entries
of `cs` themselves; direct children of the root have depth 1). -/
def entriesBelow : List FsNode → Nat → List (FileInfo × Nat)
  | cs, d =>
    cs.attach.flatMap (fun n =>
      (n.1.info, d) ::
      (if n.1.info.isDir then entriesBelow n.1.children (d + 1) else []))
  termination_by cs _ => sizeOf cs
  decreasing_by
    have hn : sizeOf n.1 < sizeOf cs := List.sizeOf_lt_of_mem n.2
    have hc : sizeOf n.1.children < sizeOf n.1 := by
      cases n.1 with
      | mk i ch => simp [FsNode.children]
    omega

/-! ### Specification-side definitions

These definitions follow the spec's words (not the code); the theorems
compare the code-derived definitions above against them. -/

/-- The spec's SQL-LIKE semantics, read off the claim's words: `%` matches
any sequence of characters, `_` matches exactly one character, and every
other pattern character matches only itself literally; the match is anchored
to the full string.  `SqlLikeLit p s` means pattern `p` matches string
`s`. -/
inductive SqlLikeLit : List Char → List Char → Prop where
  | nil : SqlLikeLit [] []
  | lit (c : Char) (p s : List Char) : c ≠ '%' → c ≠ '_' →
      SqlLikeLit p s → SqlLikeLit (c :: p) (c :: s)
  | one (c : Char) (p s : List Char) :
      SqlLikeLit p s → SqlLikeLit ('_' :: p) (c :: s)
  | starSkip (p s : List Char) :
      SqlLikeLit p s → SqlLikeLit ('%' :: p) s
  | starCons (c : Char) (p s : List Char) :
      SqlLikeLit ('%' :: p) s → SqlLikeLit ('%' :: p) (c :: s)

/-- The token a pattern character turns into under the code's
`%`/`_`-to-regexp translation, for patterns inside the modelled fragment. -/
def tokOf (c : Char) : RTok :=
  if c = '%' then RTok.anyStar
  else if c = '_' then RTok.anyChar
  else RTok.lit c

/-- ASCII uppercase test (`c ∈ 'A'..'Z'`). -/
def isUpperChar (c : Char) : Bool :=
  65 ≤ c.toNat && c.toNat ≤ 90

/-- The spec-side extension of a basename, as the amended claim words it:
the suffix from the final `.` on (including the dot), empty when the
basename holds no dot. -/
def extWithDot (base : List Char) : List Char :=
  if '.' ∈ base then
    '.' :: (base.reverse.takeWhile (· ≠ '.')).reverse
  else []

/-! ### Concrete data used by witnesses and counterexamples -/

/-- A plain regular file entry with the given key and size. -/
def mkFile (key : String) (size : Int) (ctime mtime : Int) : FileInfo :=
  { key := key.data, size := size, mtime := mtime, atime := 0,
    ctime := ctime, perm := 420, isDir := false, isSymlink := false,
    isRegular := true }

/-- A directory entry with the given key. -/
def mkDir (key : String) : FileInfo :=
  { key := key.data, size := 0, mtime := 0, atime := 0, ctime := 0,
    perm := 493, isDir := true, isSymlink := false, isRegular := false }

/-- The entries an unfiltered scan of the spec's example tree
`/a/f1(100B), /a/f2(2KB), /b/g1(5MB), /b/c/h(10B)` emits. -/
def exampleScanEntries : List FileInfo :=
  [mkDir "/a", mkFile "/a/f1" 100 0 0, mkFile "/a/f2" 2048 0 0,
   mkDir "/b", mkFile "/b/g1" 5242880 0 0, mkDir "/b/c",
   mkFile "/b/c/h" 10 0 0]

/-- A prior catalog row with the given path and times. -/
def mkRow (path : String) (ctime mtime : Int) : FileInfoData :=
  { key := path.data, size := 0, ext := [], ctime := ctime, mtime := mtime,
    atime := 0, perm := 0, isSymlink := false, isDir := false,
    isRegular := false }

/-! ### Helper lemmas -/

/-- Successful `mapM parseCondition` relates conditions to their clauses. -/
theorem mapM_parseCondition_mem {conds : List (List Char)}
    {flt : List Condition} (h : NewConditionFilter conds = some flt) :
    ∀ c ∈ flt, ∃ clause ∈ conds, parseCondition clause = some c := by
  induction conds generalizing flt with
  | nil =>
    simp only [NewConditionFilter, List.mapM_nil, pure, Option.some.injEq]
      at h
    subst h
    simp
  | cons a l ih =>
    simp only [NewConditionFilter, List.mapM_cons, Option.bind_eq_bind,
      Option.bind_eq_some, Option.some.injEq, pure] at h
    obtain ⟨b, hb, bs, hbs, hflt⟩ := h
    subst hflt
    intro c hc
    rcases List.mem_cons.mp hc with hc | hc
    · exact ⟨a, List.mem_cons_self a l, hc ▸ hb⟩
    · obtain ⟨clause, hcl, hp⟩ := ih hbs c hc
      exact ⟨clause, List.mem_cons_of_mem a hcl, hp⟩

/-- A compiled filter is satisfied exactly when every clause of the input
list parses to a condition the entry matches. -/
theorem isSatisfied_iff_clauses {conds : List (List Char)}
    {flt : List Condition} (h : NewConditionFilter conds = some flt)
    (now : Int) (fileInfo : FileInfo) :
    IsSatisfied now flt fileInfo = true ↔
      ∀ clause ∈ conds, ∃ c, parseCondition clause = some c ∧
        matchCondition now fileInfo c = true := by
  induction conds generalizing flt with
  | nil =>
    simp only [NewConditionFilter, List.mapM_nil, pure, Option.some.injEq]
      at h
    subst h
    simp [IsSatisfied]
  | cons a l ih =>
    simp only [NewConditionFilter, List.mapM_cons, Option.bind_eq_bind,
      Option.bind_eq_some, Option.some.injEq, pure] at h
    obtain ⟨b, hb, bs, hbs, hflt⟩ := h
    subst hflt
    simp only [IsSatisfied, List.all_cons, Bool.and_eq_true] at *
    constructor
    · rintro ⟨hmb, hall⟩ clause hcl
      rcases List.mem_cons.mp hcl with hcl | hcl
      · exact ⟨b, hcl ▸ hb, hmb⟩
      · exact ((ih hbs).mp hall) clause hcl
    · intro hall
      refine ⟨?_, (ih hbs).mpr fun clause hcl =>
        hall clause (List.mem_cons_of_mem a hcl)⟩
      obtain ⟨c, hc, hm⟩ := hall a (List.mem_cons_self a l)
      rw [hb] at hc
      exact (Option.some.injEq _ _ ▸ hc) ▸ hm

/-- The condition `parseCondition` compiles from `modified < 0.5`
(0.5 hours = 1 800 000 000 000 ns). -/
def modifiedLtHalfHour : Condition :=
  { property := "modified".data, operator := "<".data,
    value := CondValue.dur 1800000000000 }

/-- The condition the CLI path compiles from `name == 'README.md'`
(the whole expression is lowercased first). -/
def condNameReadme : Condition :=
  { property := "name".data, operator := "==".data,
    value := CondValue.str "readme.md".data }

/-! ### Claims -/

/-- C9 (code_bug): with `fileCount = 0` (an empty scan) the summary's
average-size computation `totalSize / fileCount` does not return 0 — the Go
code divides by zero, a runtime panic (modelled as `none`), although every
other average in the same file is guarded. -/
theorem C9_average_size_division_by_zero :
    averageSizeBytes (statsOf []) = none ∧ (statsOf []).fileCount = 0 ∧
      getAvgNameLength (statsOf []) = 0 ∧ getAvgDirDepth (statsOf []) = 0 :=
  ⟨rfl, rfl, rfl, rfl⟩

/-- C8 counterexample: on the spec's example tree the derived average name
length is 1, not 2 — `Stats.Update` adds no basename length for directory
entries. -/
theorem C8_counterexample :
    getAvgNameLength (statsOf exampleScanEntries) = 1 ∧ (1 : Int) ≠ 2 := by
  exact ⟨by decide, by decide⟩

/-- C8 (corrected): `Stats.Update` updates `totalNameLen` and `maxNameLen`
only for non-directory entries — a directory leaves every name-length
counter (and `fileCount`) unchanged, while a non-directory entry adds its
basename length — so the unfiltered scan of the example tree yields
`avgNameLen = 1` (`7 / 4`), not 2. -/
theorem C8_name_length_only_for_files :
    (∀ (s : Stats) (fileInfo : FileInfo), fileInfo.isDir = true →
      (statsUpdate s fileInfo).totalNameLength = s.totalNameLength ∧
      (statsUpdate s fileInfo).maxNameLength = s.maxNameLength ∧
      (statsUpdate s fileInfo).fileCount = s.fileCount) ∧
    (∀ (s : Stats) (fileInfo : FileInfo), fileInfo.isDir = false →
      (statsUpdate s fileInfo).totalNameLength =
        s.totalNameLength + (basename fileInfo.key).length) ∧
    getAvgNameLength (statsOf exampleScanEntries) = 1 := by
  refine ⟨fun s fi h => ?_, fun s fi h => ?_, by decide⟩
  · simp only [statsUpdate, h, if_true]
    by_cases hs : fi.isSymlink <;> simp [hs]
  · simp only [statsUpdate, h, if_false, Bool.false_eq_true]
    by_cases hs : fi.isSymlink <;> simp [hs]

/-- C8 witness: the first two parts applied at a concrete directory and a
concrete file. -/
theorem C8_name_length_only_for_files_witness :
    ((statsUpdate {} (mkDir "/a")).totalNameLength =
      ({} : Stats).totalNameLength) ∧
    ((statsUpdate {} (mkFile "/a/f1" 100 0 0)).totalNameLength =
      ({} : Stats).totalNameLength +
        (basename (mkFile "/a/f1" 100 0 0).key).length) :=
  ⟨(C8_name_length_only_for_files.1 {} (mkDir "/a") rfl).1,
   C8_name_length_only_for_files.2.1 {} (mkFile "/a/f1" 100 0 0) rfl⟩

/-- C5 counterexample: `name in 'sandbox'` does not compile to a single
condition with the value intact — the substring split cuts the quoted value
apart and compilation fails. -/
theorem C5_counterexample :
    NewConditionFilter (ParseConditions "name in 'sandbox'".data) = none ∧
    ParseConditions "name in 'sandbox'".data ≠
      ["name in 'sandbox'".data] := by
  exact ⟨by decide, by decide⟩

/-- C5 (corrected): compilation splits the lowercased expression at every
occurrence of the substring `and` (not at standalone tokens), parses each
resulting clause independently and joins the clauses by logical AND; hence
`name in 'sandbox'` splits into the clauses `name in 's` and `box'` and
fails to compile (the second clause has no operator). -/
theorem C5_split_is_substring_based :
    (∀ (conds : List (List Char)) (flt : List Condition) (now : Int)
        (fileInfo : FileInfo), NewConditionFilter conds = some flt →
      (IsSatisfied now flt fileInfo = true ↔
        ∀ clause ∈ conds, ∃ c, parseCondition clause = some c ∧
          matchCondition now fileInfo c = true)) ∧
    ParseConditions "name in 'sandbox'".data =
      ["name in 's".data, "box'".data] ∧
    NewConditionFilter (ParseConditions "name in 'sandbox'".data) = none :=
  ⟨fun _ _ now fi h => isSatisfied_iff_clauses h now fi, by decide, by decide⟩

/-- C5 witness: the AND-join part applied to a concrete one-clause input. -/
theorem C5_split_is_substring_based_witness :
    NewConditionFilter ["name == 'x'".data] =
      some [{ property := "name".data, operator := "==".data,
              value := CondValue.str "x".data }] ∧
    (IsSatisfied 0 [{ property := "name".data, operator := "==".data,
                      value := CondValue.str "x".data }]
        (mkFile "x" 0 0 0) = true ↔
      ∀ clause ∈ ["name == 'x'".data], ∃ c, parseCondition clause = some c ∧
        matchCondition 0 (mkFile "x" 0 0 0) c = true) :=
  ⟨by decide, C5_split_is_substring_based.1 _ _ 0 _ (by decide)⟩

/-- C4 counterexample: an entry whose mtime (0) is far older than
`now − 30 min` satisfies the compiled `modified < 0.5`, although it is not
newer than 30 minutes before `now` — the claim's reading is inverted. -/
theorem C4_counterexample :
    matchCondition 10000000000000 (mkFile "/a/old" 0 0 0)
      modifiedLtHalfHour = true ∧
    ¬ (10000000000000 - 1800000000000 <
        (mkFile "/a/old" 0 0 0).mtime) := by
  exact ⟨by decide, by decide⟩

/-- C4 (corrected): the compiled condition `modified < 0.5` is satisfied
exactly when the entry's mtime is strictly older than 30 minutes before
`now` (`mtime < now − 30 min`), not newer. -/
theorem C4_modified_lt_means_older :
    parseCondition "modified < 0.5".data = some modifiedLtHalfHour ∧
    ∀ (fileInfo : FileInfo) (now : Int),
      matchCondition now fileInfo modifiedLtHalfHour = true ↔
        fileInfo.mtime < now - 1800000000000 := by
  refine ⟨by decide, fun fi now => ?_⟩
  change decide (fi.mtime < now - 1800000000000) = true ↔ _
  exact decide_eq_true_iff

/-- Membership in the engine's `newFiles` output. -/
theorem mem_incremental_new (bloom : List Char → Bool)
    (prior : List FileInfoData) (scanned : List FileInfo)
    (r : FileInfoData) :
    r ∈ (ProcessFilesForIncrementalScan bloom prior scanned).1 ↔
      ∃ e ∈ scanned, r = ProcessFileInfo e ∧
        (bloom e.key = false ∨
          (bloom e.key = true ∧ ∀ f ∈ prior, f.key ≠ r.key)) := by
  simp only [ProcessFilesForIncrementalScan, bloomPreFilter,
    QueryExactNewFiles, List.mem_append, List.mem_filter, List.mem_map,
    List.all_eq_true, decide_eq_true_eq, ne_eq, Bool.not_eq_true]
  constructor
  · rintro (⟨e, ⟨he, hb⟩, hr⟩ | ⟨⟨e, ⟨he, hb⟩, hr⟩, hall⟩)
    · exact ⟨e, he, hr.symm, Or.inl hb⟩
    · exact ⟨e, he, hr.symm, Or.inr ⟨hb, fun f hf => hall f hf⟩⟩
  · rintro ⟨e, he, hr, hb | ⟨hb, hall⟩⟩
    · exact Or.inl ⟨e, ⟨he, hb⟩, hr.symm⟩
    · exact Or.inr ⟨⟨e, ⟨he, hb⟩, hr.symm⟩, fun f hf => hall f hf⟩

/-- Membership in the engine's `changedFiles` output. -/
theorem mem_incremental_changed (bloom : List Char → Bool)
    (prior : List FileInfoData) (scanned : List FileInfo)
    (r : FileInfoData) :
    r ∈ (ProcessFilesForIncrementalScan bloom prior scanned).2 ↔
      ∃ e ∈ scanned, r = ProcessFileInfo e ∧ bloom e.key = true ∧
        ∃ f ∈ prior, f.key = r.key ∧
          (r.ctime ≠ f.ctime ∨ r.mtime ≠ f.mtime) := by
  simp only [ProcessFilesForIncrementalScan, bloomPreFilter,
    QueryChangedFiles, List.mem_flatMap, List.mem_map, List.mem_filter,
    decide_eq_true_eq, ne_eq]
  constructor
  · rintro ⟨t, ⟨e, ⟨he, hb⟩, rfl⟩, f, ⟨hf, hkey, htime⟩, rfl⟩
    exact ⟨e, he, rfl, hb, f, hf, hkey, htime⟩
  · rintro ⟨e, he, rfl, hb, f, hf, hkey, htime⟩
    exact ⟨ProcessFileInfo e, ⟨e, ⟨he, hb⟩, rfl⟩, f, ⟨hf, hkey, htime⟩, rfl⟩

/-- C1 (confirmed): assuming only the bloom filter's no-false-negative
guarantee (every prior path tests positive), the incremental engine's two
outputs satisfy: every element of `newFiles` and of `changedFiles` is (the
persisted projection of) a current-scan entry; no `newFiles` path occurs in
`file_entries`; every `changedFiles` element has a `file_entries` row with
the same path whose ctime or mtime differs; and every current-scan entry
whose path is absent from `file_entries` appears in `newFiles`. -/
theorem C1_incremental_diff_correct (bloom : List Char → Bool)
    (prior : List FileInfoData) (scanned : List FileInfo)
    (hbloom : ∀ f ∈ prior, bloom f.key = true) :
    (∀ r ∈ (ProcessFilesForIncrementalScan bloom prior scanned).1,
       ∃ e ∈ scanned, r = ProcessFileInfo e) ∧
    (∀ r ∈ (ProcessFilesForIncrementalScan bloom prior scanned).2,
       ∃ e ∈ scanned, r = ProcessFileInfo e) ∧
    (∀ r ∈ (ProcessFilesForIncrementalScan bloom prior scanned).1,
       ∀ f ∈ prior, f.key ≠ r.key) ∧
    (∀ r ∈ (ProcessFilesForIncrementalScan bloom prior scanned).2,
       ∃ f ∈ prior, f.key = r.key ∧
         (r.ctime ≠ f.ctime ∨ r.mtime ≠ f.mtime)) ∧
    (∀ e ∈ scanned, (∀ f ∈ prior, f.key ≠ e.key) →
       ProcessFileInfo e ∈
         (ProcessFilesForIncrementalScan bloom prior scanned).1) := by
  refine ⟨?_, ?_, ?_, ?_, ?_⟩
  · intro r hr
    obtain ⟨e, he, hr', _⟩ := (mem_incremental_new _ _ _ _).mp hr
    exact ⟨e, he, hr'⟩
  · intro r hr
    obtain ⟨e, he, hr', _⟩ := (mem_incremental_changed _ _ _ _).mp hr
    exact ⟨e, he, hr'⟩
  · intro r hr f hf
    obtain ⟨e, he, rfl, hcase⟩ := (mem_incremental_new _ _ _ _).mp hr
    rcases hcase with hb | ⟨_, hall⟩
    · intro hkey
      have : bloom f.key = true := hbloom f hf
      rw [hkey] at this
      rw [show (ProcessFileInfo e).key = e.key from rfl] at this
      rw [this] at hb
      cases hb
    · exact hall f hf
  · intro r hr
    obtain ⟨e, he, rfl, _, f, hf, hkey, htime⟩ :=
      (mem_incremental_changed _ _ _ _).mp hr
    exact ⟨f, hf, hkey, htime⟩
  · intro e he hnew
    refine (mem_incremental_new _ _ _ _).mpr ⟨e, he, rfl, ?_⟩
    cases hb : bloom e.key
    · exact Or.inl rfl
    · exact Or.inr ⟨rfl, fun f hf =>
        show f.key ≠ (ProcessFileInfo e).key from hnew f hf⟩

/-- C1 witness: the engine on a concrete prior catalog, scan and bloom
predicate (which over-approximates the prior paths, as a real bloom filter
does). -/
theorem C1_incremental_diff_correct_witness :
    (∀ f ∈ [mkRow "/a/f1" 1 1, mkRow "/a/f2" 1 1],
      (fun k => decide (k = "/a/f1".data) || decide (k = "/a/f2".data) ||
        decide (k = "/a/fp".data)) f.key = true) ∧
    (∀ e ∈ [mkFile "/a/f1" 9 1 1, mkFile "/a/f3" 9 2 2,
            mkFile "/a/fp" 9 3 3],
      (∀ f ∈ [mkRow "/a/f1" 1 1, mkRow "/a/f2" 1 1], f.key ≠ e.key) →
      ProcessFileInfo e ∈
        (ProcessFilesForIncrementalScan
          (fun k => decide (k = "/a/f1".data) || decide (k = "/a/f2".data) ||
            decide (k = "/a/fp".data))
          [mkRow "/a/f1" 1 1, mkRow "/a/f2" 1 1]
          [mkFile "/a/f1" 9 1 1, mkFile "/a/f3" 9 2 2,
           mkFile "/a/fp" 9 3 3]).1) :=
  ⟨by decide,
   (C1_incremental_diff_correct
     (fun k => decide (k = "/a/f1".data) || decide (k = "/a/f2".data) ||
       decide (k = "/a/fp".data))
     [mkRow "/a/f1" 1 1, mkRow "/a/f2" 1 1]
     [mkFile "/a/f1" 9 1 1, mkFile "/a/f3" 9 2 2, mkFile "/a/fp" 9 3 3]
     (by decide)).2.2.2.2⟩

/-- Closed form of the backward extension scan: on the reversed key, the
result is the reversed run of characters before the first `.` (stopping at
any `/`), prefixed by the dot, and empty when no dot precedes a
separator. -/
theorem extScan_eq (rev : List Char) :
    ∀ acc, extScan rev acc =
      if '.' ∈ rev.takeWhile (fun c => c ≠ '/') then
        '.' :: (((rev.takeWhile (fun c => c ≠ '/')).takeWhile
          (fun c => c ≠ '.')).reverse ++ acc)
      else [] := by
  induction rev with
  | nil => intro acc; simp [extScan]
  | cons c rest ih =>
    intro acc
    by_cases hslash : c = '/'
    · subst hslash
      simp [extScan]
    · by_cases hdot : c = '.'
      · subst hdot
        simp [extScan, hslash]
      · rw [show extScan (c :: rest) acc = extScan rest (c :: acc) by
          simp [extScan, hslash, hdot]]
        rw [ih (c :: acc)]
        rw [show List.takeWhile (fun x => x ≠ '/') (c :: rest) =
            c :: List.takeWhile (fun x => x ≠ '/') rest by
          simp [List.takeWhile_cons, hslash]]
        rw [show List.takeWhile (fun x => x ≠ '.')
            (c :: List.takeWhile (fun x => x ≠ '/') rest) =
            c :: List.takeWhile (fun x => x ≠ '.')
              (List.takeWhile (fun x => x ≠ '/') rest) by
          simp [List.takeWhile_cons, hdot]]
        have hmem : ('.' ∈ c :: List.takeWhile (fun x => x ≠ '/') rest) ↔
            ('.' ∈ List.takeWhile (fun x => x ≠ '/') rest) := by
          simp only [List.mem_cons]
          exact or_iff_right (fun h => hdot h.symm)
        rw [if_congr hmem rfl rfl]
        by_cases h : '.' ∈ List.takeWhile (fun x => x ≠ '/') rest
        · rw [if_pos h, if_pos h]
          simp [List.reverse_cons, List.append_assoc]
        · rw [if_neg h, if_neg h]

/-- For a non-empty key not ending in a separator, `basename` is the
reversed maximal separator-free suffix. -/
theorem basename_eq_of_no_trailing_slash (key : List Char) (hne : key ≠ [])
    (hlast : key.getLast? ≠ some '/') :
    basename key = (key.reverse.takeWhile (fun c => c ≠ '/')).reverse := by
  obtain ⟨c, t, hrev⟩ : ∃ c t, key.reverse = c :: t := by
    cases h : key.reverse with
    | nil => exact absurd (by simpa using congrArg List.reverse h) hne
    | cons c t => exact ⟨c, t, rfl⟩
  have hhead : c ≠ '/' := by
    intro hc
    apply hlast
    rw [← List.head?_reverse, hrev, hc]
    rfl
  have hdrop : key.reverse.dropWhile (fun c => c = '/') = key.reverse := by
    rw [hrev, List.dropWhile_cons]
    simp [hhead]
  simp only [basename, hne, if_false]
  rw [show (key.reverse.dropWhile (fun c => decide (c = '/'))) =
        key.reverse from by simpa using hdrop]
  simp [List.reverse_reverse, hne]

/-- C7 counterexample: the persisted `ext` of the entry with key `a/b.txt`
is `.txt` (with the leading dot), not `txt`. -/
theorem C7_counterexample :
    (ProcessFileInfo (mkFile "a/b.txt" 7 0 0)).ext = ".txt".data ∧
    ".txt".data ≠ "txt".data := by
  exact ⟨by decide, by decide⟩

/-- C7 (corrected): for a catalog row of an entry whose key is non-empty
and does not end in a separator, `ext` is empty for directories and
otherwise equals the suffix of the basename from its final `.` on —
including the leading dot (`.txt` for key `a/b.txt`) — and is empty when
the basename holds no dot. -/
theorem C7_ext_keeps_leading_dot (fileInfo : FileInfo)
    (hne : fileInfo.key ≠ []) (hlast : fileInfo.key.getLast? ≠ some '/') :
    (fileInfo.isDir = true → (ProcessFileInfo fileInfo).ext = []) ∧
    (fileInfo.isDir = false → (ProcessFileInfo fileInfo).ext =
      extWithDot (basename fileInfo.key)) := by
  constructor
  · intro hd
    simp [ProcessFileInfo, hd]
  · intro hd
    have h1 : (ProcessFileInfo fileInfo).ext = filepathExt fileInfo.key := by
      simp [ProcessFileInfo, hd]
    rw [h1, filepathExt, extScan_eq,
      basename_eq_of_no_trailing_slash _ hne hlast, extWithDot]
    simp [List.mem_reverse, List.reverse_reverse]

/-- C7 witness: the amended characterization applied at key `a/b.txt` and
at a directory. -/
theorem C7_ext_keeps_leading_dot_witness :
    ((ProcessFileInfo (mkFile "a/b.txt" 7 0 0)).ext =
      extWithDot (basename (mkFile "a/b.txt" 7 0 0).key)) ∧
    (ProcessFileInfo (mkDir "/a")).ext = [] :=
  ⟨(C7_ext_keeps_leading_dot (mkFile "a/b.txt" 7 0 0) (by decide)
      (by decide)).2 rfl,
   (C7_ext_keeps_leading_dot (mkDir "/a") (by decide) (by decide)).1 rfl⟩

/-- A node's children are structurally smaller than the node. -/
theorem sizeOf_children_lt (node : FsNode) :
    sizeOf node.children < sizeOf node := by
  cases node with
  | mk i ch => simp [FsNode.children]

/-- Every entry below a sibling list at depth `d` has depth at least `d`. -/
theorem le_depth_of_mem_entriesBelow :
    ∀ (n : Nat) (cs : List FsNode), sizeOf cs ≤ n →
      ∀ (d k : Nat) (e : FileInfo), (e, k) ∈ entriesBelow cs d → d ≤ k := by
  intro n
  induction n with
  | zero =>
    intro cs hsz
    exfalso
    cases cs <;> simp at hsz
  | succ n ih =>
    intro cs hsz d k e hmem
    rw [entriesBelow] at hmem
    simp only [List.mem_flatMap, List.mem_attach, true_and] at hmem
    obtain ⟨a, hmem⟩ := hmem
    rcases List.mem_cons.mp hmem with heq | hmem
    · have : e = a.1.info ∧ k = d := Prod.mk.injEq .. ▸ heq
      omega
    · by_cases hdir : a.1.info.isDir
      · rw [if_pos hdir] at hmem
        have hn : sizeOf a.1 < sizeOf cs := List.sizeOf_lt_of_mem a.2
        have hc := sizeOf_children_lt a.1
        have := ih a.1.children (by omega) (d + 1) k e hmem
        omega
      · rw [if_neg hdir] at hmem
        cases hmem

/-- The admission rule, spelled as the spec words it. -/
theorem admitRule_eq_true_iff (now : Int) (M X : List Condition)
    (e : FileInfo) :
    admitRule now M X e = true ↔
      ((M = [] ∨ IsSatisfied now M e = true) ∧
       ¬(X ≠ [] ∧ IsSatisfied now X e = true)) := by
  by_cases hM : M = [] <;> by_cases hX : X = [] <;>
    cases hMS : IsSatisfied now M e <;> cases hXS : IsSatisfied now X e <;>
    simp [admitRule, IsSatisfied, hM, hX, hMS, hXS] <;>
    simp_all [IsSatisfied]

/-- Membership in the walker's output stream: an entry is emitted exactly
when it lies below the root, passes the admission rule, and its depth is
within the cap (`depth = 0` imposing none). -/
theorem mem_listAll_iff (depth : Nat) (now : Int) (M X : List Condition) :
    ∀ (n : Nat) (cs : List FsNode), sizeOf cs ≤ n →
      ∀ (c : Nat) (e : FileInfo),
      (e ∈ listAll depth now M X cs c ↔
        ∃ k, (e, k) ∈ entriesBelow cs c ∧ admitRule now M X e = true ∧
          (depth = 0 ∨ k ≤ depth)) := by
  intro n
  induction n with
  | zero =>
    intro cs hsz
    exfalso
    cases cs <;> simp at hsz
  | succ n ih =>
    intro cs hsz c e
    rw [listAll, entriesBelow]
    by_cases hguard : 0 < depth ∧ depth < c
    · rw [if_pos hguard]
      simp only [List.not_mem_nil, false_iff, not_exists, not_and]
      intro k hk hadm
      have hk' : c ≤ k := by
        have := le_depth_of_mem_entriesBelow (sizeOf cs) cs le_rfl c k e
        apply this
        rw [entriesBelow]
        exact hk
      omega
    · rw [if_neg hguard]
      simp only [List.mem_append, List.mem_filter, List.mem_map,
        List.mem_flatMap, List.mem_attach, true_and]
      constructor
      · rintro (⟨⟨node, hnode, rfl⟩, hadm⟩ | ⟨a, hmem⟩)
        · exact ⟨c, ⟨⟨node, hnode⟩, List.mem_cons_self _ _⟩, hadm,
            by omega⟩
        · by_cases hdir : a.1.info.isDir
          · rw [if_pos hdir] at hmem
            have hn : sizeOf a.1 < sizeOf cs := List.sizeOf_lt_of_mem a.2
            have hc := sizeOf_children_lt a.1
            obtain ⟨k, hk, hadm, hbound⟩ :=
              (ih a.1.children (by omega) (c + 1) e).mp hmem
            refine ⟨k, ⟨a, List.mem_cons_of_mem _ ?_⟩, hadm, hbound⟩
            rw [if_pos hdir]
            exact hk
          · rw [if_neg hdir] at hmem
            cases hmem
      · rintro ⟨k, ⟨a, hk⟩, hadm, hbound⟩
        rcases List.mem_cons.mp hk with heq | hk
        · obtain ⟨he, hkc⟩ : e = a.1.info ∧ k = c := Prod.mk.injEq .. ▸ heq
          exact Or.inl ⟨⟨a.1, a.2, he.symm⟩, hadm⟩
        · by_cases hdir : a.1.info.isDir
          · rw [if_pos hdir] at hk
            have hn : sizeOf a.1 < sizeOf cs := List.sizeOf_lt_of_mem a.2
            have hc := sizeOf_children_lt a.1
            refine Or.inr ⟨a, ?_⟩
            rw [if_pos hdir]
            exact (ih a.1.children (by omega) (c + 1) e).mpr
              ⟨k, hk, hadm, hbound⟩
          · rw [if_neg hdir] at hk
            cases hk

/-- An entry sits at depth `d` in `entriesBelow cs d` exactly when it is
the entry of one of the sibling nodes themselves. -/
theorem mem_entriesBelow_self (cs : List FsNode) (d : Nat) (e : FileInfo) :
    ((e, d) ∈ entriesBelow cs d) ↔ e ∈ cs.map FsNode.info := by
  constructor
  · intro h
    rw [entriesBelow] at h
    simp only [List.mem_flatMap, List.mem_attach, true_and] at h
    obtain ⟨a, h⟩ := h
    rcases List.mem_cons.mp h with heq | h
    · obtain ⟨he, _⟩ : e = a.1.info ∧ d = d := Prod.mk.injEq .. ▸ heq
      exact List.mem_map.mpr ⟨a.1, a.2, he.symm⟩
    · by_cases hdir : a.1.info.isDir
      · rw [if_pos hdir] at h
        have := le_depth_of_mem_entriesBelow (sizeOf a.1.children)
          a.1.children le_rfl (d + 1) d e h
        omega
      · rw [if_neg hdir] at h
        cases h
  · intro h
    obtain ⟨node, hnode, rfl⟩ := List.mem_map.mp h
    rw [entriesBelow]
    simp only [List.mem_flatMap, List.mem_attach, true_and]
    exact ⟨⟨node, hnode⟩, List.mem_cons_self _ _⟩

/-- C2 (confirmed): with no depth cap the walker emits an entry exactly when
it lies somewhere below the root and satisfies the admission rule
`(M empty ∨ M(e)) ∧ ¬(X non-empty ∧ X(e))`; in particular a directory that
fails the rule is still recursed into, so no admissible entry below it is
omitted. -/
theorem C2_admission_rule (now : Int) (M X : List Condition)
    (cs : List FsNode) (e : FileInfo) :
    e ∈ listAll 0 now M X cs 1 ↔
      ((∃ k, (e, k) ∈ entriesBelow cs 1) ∧
       (M = [] ∨ IsSatisfied now M e = true) ∧
       ¬(X ≠ [] ∧ IsSatisfied now X e = true)) := by
  rw [mem_listAll_iff 0 now M X (sizeOf cs) cs le_rfl 1 e]
  constructor
  · rintro ⟨k, hk, hadm, _⟩
    exact ⟨⟨k, hk⟩, (admitRule_eq_true_iff now M X e).mp hadm⟩
  · rintro ⟨⟨k, hk⟩, h1, h2⟩
    exact ⟨k, hk, (admitRule_eq_true_iff now M X e).mpr ⟨h1, h2⟩, Or.inl rfl⟩

/-- C3 (confirmed): with a depth cap `D > 0` the (unfiltered) walker emits
exactly the entries at depths `1..D` (no entry deeper than `D` is emitted),
`D = 0` imposes no limit, and with `D = 1` exactly the direct children of
the root are emitted. -/
theorem C3_depth_cap (now : Int) :
    (∀ (cs : List FsNode) (depth : Nat) (e : FileInfo),
      e ∈ listAll depth now [] [] cs 1 ↔
        ∃ k, (e, k) ∈ entriesBelow cs 1 ∧ (depth = 0 ∨ k ≤ depth)) ∧
    (∀ (cs : List FsNode) (e : FileInfo),
      e ∈ listAll 1 now [] [] cs 1 ↔ e ∈ cs.map FsNode.info) := by
  have hbase : ∀ (cs : List FsNode) (depth : Nat) (e : FileInfo),
      e ∈ listAll depth now [] [] cs 1 ↔
        ∃ k, (e, k) ∈ entriesBelow cs 1 ∧ (depth = 0 ∨ k ≤ depth) := by
    intro cs depth e
    rw [mem_listAll_iff depth now [] [] (sizeOf cs) cs le_rfl 1 e]
    have hadm : admitRule now [] [] e = true := by
      simp [admitRule, IsSatisfied]
    simp [hadm]
  refine ⟨hbase, fun cs e => ?_⟩
  rw [hbase cs 1 e]
  constructor
  · rintro ⟨k, hk, hbound⟩
    have h1 : 1 ≤ k :=
      le_depth_of_mem_entriesBelow (sizeOf cs) cs le_rfl 1 k e hk
    have : k = 1 := by omega
    subst this
    exact (mem_entriesBelow_self cs 1 e).mp hk
  · intro h
    exact ⟨1, (mem_entriesBelow_self cs 1 e).mpr h, Or.inr le_rfl⟩

/-- Translation of a `%`: `strings.Replace` emits `.*`. -/
theorem translateLike_percent_cons (p : List Char) :
    translateLike ('%' :: p) = '.' :: '*' :: translateLike p := by
  simp [translateLike, replacePercent, replaceUnderscore]

/-- Translation of a `_`: the second `strings.Replace` turns it into `.`. -/
theorem translateLike_underscore_cons (p : List Char) :
    translateLike ('_' :: p) = '.' :: translateLike p := by
  simp [translateLike, replacePercent, replaceUnderscore]

/-- Translation of any other character: passed through unchanged. -/
theorem translateLike_lit_cons (c : Char) (p : List Char) (h1 : c ≠ '%')
    (h2 : c ≠ '_') : translateLike (c :: p) = c :: translateLike p := by
  simp [translateLike, replacePercent, replaceUnderscore, h1, h2]

/-- `tokenizeRegex` on a dot followed by a non-star character. -/
theorem tokenizeRegex_dot_cons (c : Char) (rest : List Char)
    (h : c ≠ '*') :
    tokenizeRegex ('.' :: c :: rest) =
      (tokenizeRegex (c :: rest)).map (RTok.anyChar :: ·) := by
  rw [tokenizeRegex.eq_def]
  split
  · rename_i heq
    simp at heq
  · rename_i heq
    injection heq with h1 h2
    injection h2 with h3 h4
    exact absurd h3 h
  · rename_i heq
    injection heq with h1 h2
    rw [h2]
  · rename_i hne heq
    injection heq with h1 h2
    exact absurd h1.symm hne

/-- `tokenizeRegex` on a non-meta head character. -/
theorem tokenizeRegex_lit_cons (c : Char) (rest : List Char)
    (h : c ∉ regexMeta) :
    tokenizeRegex (c :: rest) =
      (tokenizeRegex rest).map (RTok.lit c :: ·) := by
  have hcdot : c ≠ '.' := fun hc => h (hc ▸ by decide)
  rw [tokenizeRegex.eq_def]
  split
  · rename_i heq
    simp at heq
  · rename_i heq
    injection heq with h1 h2
    exact absurd h1 hcdot
  · rename_i heq
    injection heq with h1 h2
    exact absurd h1 hcdot
  · rename_i hne heq
    injection heq with h1 h2
    rw [← h1, ← h2, if_neg (by simpa using h)]

/-- The head of a translated fragment pattern is never `*`. -/
theorem translateLike_head_ne_star (p : List Char)
    (hp : ∀ c ∈ p, c ∉ regexMeta) :
    (translateLike p).head? ≠ some '*' := by
  cases p with
  | nil => simp [translateLike, replacePercent, replaceUnderscore]
  | cons c p' =>
    by_cases h1 : c = '%'
    · subst h1
      rw [translateLike_percent_cons]
      simp
    · by_cases h2 : c = '_'
      · subst h2
        rw [translateLike_underscore_cons]
        simp
      · rw [translateLike_lit_cons c p' h1 h2]
        simp only [List.head?_cons, ne_eq, Option.some.injEq]
        intro hc
        exact hp c (List.mem_cons_self _ _) (hc ▸ by decide)

/-- For a pattern free of regexp metacharacters, tokenizing its translation
yields exactly the per-character tokens. -/
theorem tokenizeRegex_translateLike (p : List Char)
    (hp : ∀ c ∈ p, c ∉ regexMeta) :
    tokenizeRegex (translateLike p) = some (p.map tokOf) := by
  induction p with
  | nil =>
    simp [translateLike, replacePercent, replaceUnderscore, tokenizeRegex]
  | cons c p' ih =>
    have hp' : ∀ x ∈ p', x ∉ regexMeta :=
      fun x hx => hp x (List.mem_cons_of_mem _ hx)
    have hc : c ∉ regexMeta := hp c (List.mem_cons_self _ _)
    by_cases h1 : c = '%'
    · subst h1
      rw [translateLike_percent_cons]
      rw [show tokenizeRegex ('.' :: '*' :: translateLike p') =
        (tokenizeRegex (translateLike p')).map (RTok.anyStar :: ·) from rfl]
      rw [ih hp']
      simp [tokOf]
    · by_cases h2 : c = '_'
      · subst h2
        rw [translateLike_underscore_cons]
        cases htr : translateLike p' with
        | nil =>
          have hih := ih hp'
          rw [htr] at hih
          have hmap : List.map tokOf p' = [] := by
            have : some ([] : List RTok) = some (List.map tokOf p') := hih
            exact (Option.some.injEq .. ▸ this).symm ▸ rfl
          rw [show tokenizeRegex ['.'] = some [RTok.anyChar] from rfl]
          rw [List.map_cons, hmap]
          rfl
        | cons d rest =>
          have hd : d ≠ '*' := by
            have hhead := translateLike_head_ne_star p' hp'
            rw [htr] at hhead
            simpa using hhead
          rw [tokenizeRegex_dot_cons d rest hd, ← htr, ih hp']
          simp [tokOf]
      · rw [translateLike_lit_cons c p' h1 h2,
          tokenizeRegex_lit_cons c _ hc, ih hp']
        simp [tokOf, h1, h2]

/-- With sufficient fuel, the matcher on per-character tokens decides the
spec's anchored SQL-LIKE relation in which `.` is an ordinary literal. -/
theorem regexMatchAux_tokOf_iff :
    ∀ (fuel : Nat) (p s : List Char), p.length + s.length < fuel →
      (regexMatchAux fuel (p.map tokOf) s = true ↔ SqlLikeLit p s) := by
  intro fuel
  induction fuel with
  | zero =>
    intro p s hlen
    omega
  | succ fuel ih =>
    intro p s hlen
    cases p with
    | nil =>
      cases s with
      | nil =>
        simp only [List.map_nil, regexMatchAux]
        exact ⟨fun _ => SqlLikeLit.nil, fun _ => trivial⟩
      | cons d s' =>
        simp only [List.map_nil, regexMatchAux, Bool.false_eq_true,
          false_iff]
        intro h
        cases h
    | cons c p' =>
      by_cases h1 : c = '%'
      · subst h1
        rw [show List.map tokOf ('%' :: p') =
          RTok.anyStar :: List.map tokOf p' from rfl]
        cases s with
        | nil =>
          rw [show regexMatchAux (fuel + 1)
            (RTok.anyStar :: List.map tokOf p') [] =
            regexMatchAux fuel (List.map tokOf p') [] from rfl]
          rw [ih p' [] (by simp at hlen ⊢; omega)]
          constructor
          · exact fun h => SqlLikeLit.starSkip _ _ h
          · intro h
            cases h with
            | starSkip _ _ h' => exact h'
        | cons d s' =>
          rw [show regexMatchAux (fuel + 1)
            (RTok.anyStar :: List.map tokOf p') (d :: s') =
            (regexMatchAux fuel (List.map tokOf p') (d :: s') ||
             regexMatchAux fuel (RTok.anyStar :: List.map tokOf p') s')
            from rfl]
          rw [Bool.or_eq_true]
          rw [ih p' (d :: s') (by simp at hlen ⊢; omega)]
          rw [show (RTok.anyStar :: List.map tokOf p') =
            List.map tokOf ('%' :: p') from rfl]
          rw [ih ('%' :: p') s' (by simp at hlen ⊢; omega)]
          constructor
          · rintro (h | h)
            · exact SqlLikeLit.starSkip _ _ h
            · exact SqlLikeLit.starCons _ _ _ h
          · intro h
            cases h with
            | lit _ _ _ hn1 hn2 h' => exact absurd rfl hn1
            | starSkip _ _ h' => exact Or.inl h'
            | starCons _ _ _ h' => exact Or.inr h'
      · by_cases h2 : c = '_'
        · subst h2
          rw [show List.map tokOf ('_' :: p') =
            RTok.anyChar :: List.map tokOf p' from rfl]
          cases s with
          | nil =>
            simp only [regexMatchAux, Bool.false_eq_true, false_iff]
            intro h
            cases h
          | cons d s' =>
            rw [show regexMatchAux (fuel + 1)
              (RTok.anyChar :: List.map tokOf p') (d :: s') =
              regexMatchAux fuel (List.map tokOf p') s' from rfl]
            rw [ih p' s' (by simp at hlen ⊢; omega)]
            constructor
            · exact fun h => SqlLikeLit.one _ _ _ h
            · intro h
              cases h with
              | lit _ _ _ hn1 hn2 h' => exact absurd rfl hn2
              | one _ _ _ h' => exact h'
        · rw [List.map_cons,
            show tokOf c = RTok.lit c from by simp [tokOf, h1, h2]]
          cases s with
          | nil =>
            simp only [regexMatchAux, Bool.false_eq_true, false_iff]
            intro h
            cases h with
            | starSkip _ _ h' => exact absurd rfl h1
          | cons d s' =>
            rw [show regexMatchAux (fuel + 1)
              (RTok.lit c :: List.map tokOf p') (d :: s') =
              ((c = d : Bool) && regexMatchAux fuel (List.map tokOf p') s')
              from rfl]
            rw [Bool.and_eq_true, decide_eq_true_eq]
            rw [ih p' s' (by simp at hlen ⊢; omega)]
            constructor
            · rintro ⟨rfl, h⟩
              exact SqlLikeLit.lit _ _ _ h1 h2 h
            · intro h
              cases h with
              | lit _ _ _ hn1 hn2 h' => exact ⟨rfl, h'⟩
              | one _ _ _ h' => exact absurd rfl h2
              | starSkip _ _ h' => exact absurd rfl h1
              | starCons _ _ _ h' => exact absurd rfl h1

/-- The code's `like` evaluation agrees with the spec's literal SQL-LIKE
semantics on every pattern free of further regexp metacharacters. -/
theorem matchLike_iff_sqlLike (s p : List Char)
    (hp : ∀ c ∈ p, c ∉ regexMeta) :
    (matchLike s p = true ↔ SqlLikeLit p s) := by
  unfold matchLike
  rw [tokenizeRegex_translateLike p hp]
  show regexMatch (p.map tokOf) s = true ↔ _
  rw [regexMatch]
  exact regexMatchAux_tokOf_iff _ p s (by simp)

/-- C6 counterexample: `'axb' like 'a.b'` evaluates to true although `axb`
does not match `a.b` under literal SQL-wildcard semantics (the `.` should
only match itself) — the untranslated pattern characters reach the regexp
engine unescaped. -/
theorem C6_counterexample :
    matchString "axb".data "like".data "a.b".data = true ∧
    ¬ SqlLikeLit "a.b".data "axb".data := by
  refine ⟨by decide, fun h => ?_⟩
  cases h with
  | lit _ _ _ hn1 hn2 h' => cases h'

/-- C6 (corrected): the `like` operator translates `%` to `.*` and `_` to
`.` and hands the rest of the pattern to the regexp engine unescaped, so a
remaining metacharacter (such as `.`) is interpreted as regexp syntax; for
every pattern free of further regexp metacharacters, `s like p` is true
exactly when `s` matches `p` under the claimed literal SQL-wildcard
semantics (`%` any sequence, `_` exactly one character, other characters
themselves, anchored full-string). -/
theorem C6_like_literal_only_without_metachars (s p : List Char)
    (hp : ∀ c ∈ p, c ∉ regexMeta) :
    matchString s "like".data p = true ↔ SqlLikeLit p s := by
  rw [show matchString s "like".data p = matchLike s p from rfl]
  exact matchLike_iff_sqlLike s p hp

/-- C6 witness: the amended equivalence applied at the pattern `f%` and the
string `f1`. -/
theorem C6_like_literal_only_without_metachars_witness :
    (∀ c ∈ "f%".data, c ∉ regexMeta) ∧
    (matchString "f1".data "like".data "f%".data = true ↔
      SqlLikeLit "f%".data "f1".data) :=
  ⟨by decide,
   C6_like_literal_only_without_metachars "f1".data "f%".data (by decide)⟩

/-- Lowercasing never produces an ASCII uppercase character. -/
theorem isUpperChar_toLowerChar (c : Char) :
    isUpperChar (toLowerChar c) = false := by
  unfold toLowerChar
  split
  · rename_i h
    have hval : (Char.ofNat (c.toNat + 32)).toNat = c.toNat + 32 := by
      rw [Char.ofNat, dif_pos (Or.inl (by omega : c.toNat + 32 < 55296))]
      rfl
    simp only [isUpperChar, hval, Bool.and_eq_false_iff,
      decide_eq_false_iff_not]
    right
    omega
  · rename_i h
    simp only [isUpperChar, Bool.and_eq_false_iff, decide_eq_false_iff_not]
    omega

/-- Trimming whitespace keeps only characters of the original string. -/
theorem mem_of_mem_trimSpace (s : List Char) : ∀ c ∈ trimSpace s, c ∈ s := by
  intro c hc
  unfold trimSpace at hc
  rw [List.mem_reverse] at hc
  have h' := (List.dropWhile_sublist _).subset hc
  rw [List.mem_reverse] at h'
  exact (List.dropWhile_sublist _).subset h'

/-- Splitting on `and` keeps only characters of the original string. -/
theorem mem_of_mem_splitOnAnd (s : List Char) :
    ∀ piece ∈ splitOnAnd s, ∀ c ∈ piece, c ∈ s := by
  induction s using splitOnAnd.induct with
  | case1 rest ih =>
    intro piece hp c hc
    rw [show splitOnAnd ('a' :: 'n' :: 'd' :: rest) =
      [] :: splitOnAnd rest from rfl] at hp
    rcases List.mem_cons.mp hp with rfl | hp
    · cases hc
    · exact List.mem_cons_of_mem _ (List.mem_cons_of_mem _
        (List.mem_cons_of_mem _ (ih piece hp c hc)))
  | case2 ch rest hguard ih =>
    intro piece hp c hc
    have hsp : splitOnAnd (ch :: rest) = consHead ch (splitOnAnd rest) := by
      rw [splitOnAnd.eq_def]
      split
      · rename_i heq
        injection heq with e1 e2
        rename_i rest1
        exact absurd e2 (fun h2 => hguard rest1 e1 h2)
      · rename_i heq
        injection heq with e1 e2
        rw [e1, e2]
      · rename_i heq
        simp at heq
    rw [hsp] at hp
    cases hq : splitOnAnd rest with
    | nil =>
      rw [hq] at hp
      simp only [consHead] at hp
      rw [List.mem_singleton.mp hp] at hc
      rw [List.mem_singleton.mp hc]
      exact List.mem_cons_self _ _
    | cons p ps =>
      rw [hq] at hp
      simp only [consHead] at hp
      rcases List.mem_cons.mp hp with rfl | hp
      · rcases List.mem_cons.mp hc with rfl | hc
        · exact List.mem_cons_self _ _
        · exact List.mem_cons_of_mem _
            (ih p (by rw [hq]; exact List.mem_cons_self _ _) c hc)
      · exact List.mem_cons_of_mem _
          (ih piece (by rw [hq]; exact List.mem_cons_of_mem _ hp) c hc)
  | case3 =>
    intro piece hp c hc
    rw [show splitOnAnd [] = [[]] from rfl] at hp
    rw [List.mem_singleton.mp hp] at hc
    cases hc

/-- Every character of every clause `ParseConditions` produces comes from
the lowercased input, hence is not uppercase. -/
theorem no_upper_in_ParseConditions (input clause : List Char)
    (hcl : clause ∈ ParseConditions input) :
    ∀ c ∈ clause, isUpperChar c = false := by
  intro c hc
  unfold ParseConditions at hcl
  simp only [List.mem_filter, List.mem_map] at hcl
  obtain ⟨⟨piece, hpiece, rfl⟩, _⟩ := hcl
  have h1 : c ∈ piece := mem_of_mem_trimSpace _ c hc
  have h2 : c ∈ toLowerStr input :=
    mem_of_mem_splitOnAnd _ piece hpiece c h1
  obtain ⟨c0, _, rfl⟩ := List.mem_map.mp h2
  exact isUpperChar_toLowerChar c0

/-- A string value stored by `parseCondition` is built from characters of
the clause. -/
theorem parseCondition_str_value_subset (clause : List Char)
    (cond : Condition) (v : List Char)
    (hp : parseCondition clause = some cond)
    (hv : cond.value = CondValue.str v) :
    ∀ c ∈ v, c ∈ clause := by
  intro c hc
  unfold parseCondition at hp
  cases hfind : findOp clause with
  | none =>
    rw [hfind] at hp
    simp at hp
  | some iop =>
    obtain ⟨i, op⟩ := iop
    rw [hfind] at hp
    simp only [Option.bind_eq_bind, Option.some_bind] at hp
    split at hp
    · simp only [Option.some_bind, Option.some.injEq] at hp
      subst hp
      simp only at hv
      cases hv
      have h1 : c ∈ trimSpace (clause.drop (i + op.length)) := by
        unfold trimQuotes at hc
        rw [List.mem_reverse] at hc
        have h' := (List.dropWhile_sublist _).subset hc
        rw [List.mem_reverse] at h'
        exact (List.dropWhile_sublist _).subset h'
      have h2 : c ∈ clause.drop (i + op.length) :=
        mem_of_mem_trimSpace _ c h1
      exact List.drop_subset _ _ h2
    · split at hp
      · cases hps : parseSize (trimSpace (clause.drop (i + op.length))) with
        | none =>
          rw [hps] at hp
          simp at hp
        | some n =>
          rw [hps] at hp
          simp only [Option.map_some', Option.some_bind,
            Option.some.injEq] at hp
          subst hp
          simp only at hv
          cases hv
      · split at hp
        · cases hps : parseDuration
              (trimSpace (clause.drop (i + op.length))) with
          | none =>
            rw [hps] at hp
            simp at hp
          | some n =>
            rw [hps] at hp
            simp only [Option.map_some', Option.some_bind,
              Option.some.injEq] at hp
            subst hp
            simp only at hv
            cases hv
        · simp at hp

/-- C10 (confirmed): the CLI path lowercases the whole expression — every
string value of a filter compiled through `ParseConditions` contains no
uppercase character; `name == 'README.md'` compiles to the condition with
value `readme.md`, and that condition is satisfied by no entry whose
basename contains an uppercase letter. -/
theorem C10_cli_lowercases_values :
    (∀ (input : List Char) (flt : List Condition) (cond : Condition)
        (v : List Char) (c : Char),
      NewConditionFilter (ParseConditions input) = some flt → cond ∈ flt →
      cond.value = CondValue.str v → c ∈ v → isUpperChar c = false) ∧
    NewConditionFilter (ParseConditions "name == 'README.md'".data) =
      some [condNameReadme] ∧
    (∀ (fileInfo : FileInfo) (now : Int),
      (∃ c ∈ basename fileInfo.key, isUpperChar c = true) →
      IsSatisfied now [condNameReadme] fileInfo = false) := by
  refine ⟨?_, by decide, ?_⟩
  · intro input flt cond v c hflt hcond hv hc
    obtain ⟨clause, hclause, hp⟩ := mapM_parseCondition_mem hflt cond hcond
    exact no_upper_in_ParseConditions input clause hclause c
      (parseCondition_str_value_subset clause cond v hp hv c hc)
  · rintro fi now ⟨c, hc, hupper⟩
    change (decide (basename fi.key = "readme.md".data) && true) = false
    simp only [Bool.and_true, decide_eq_false_iff_not]
    intro heq
    rw [heq] at hc
    have hall : ∀ x ∈ "readme.md".data, isUpperChar x = false := by decide
    rw [hall c hc] at hupper
    cases hupper

/-- C10 witness: the no-uppercase fact applied at the compiled
`name == 'README.md'` filter, and the equality condition rejecting the
uppercase basename `README.md`. -/
theorem C10_cli_lowercases_values_witness :
    isUpperChar 'r' = false ∧
    IsSatisfied 0 [condNameReadme] (mkFile "README.md" 1 0 0) = false :=
  ⟨C10_cli_lowercases_values.1 "name == 'README.md'".data [condNameReadme]
     condNameReadme "readme.md".data 'r' (by decide) (by decide) (by decide)
     (by decide),
   C10_cli_lowercases_values.2.2 (mkFile "README.md" 1 0 0) 0
     ⟨'R', by decide, by decide⟩⟩

end Terrasync
